import Mathlib

/-
Shallow embedding of the object pools of ktpUtils (`object_pool.hpp`,
namespace `ktp`): the `ObjectPool` and `IndexedObjectPool` class templates.

Modelling conventions:
- The slot array `pool_` (a `PoolUnit<T>*` into a single `new[]` allocation)
  becomes a `List` of slot records; the pointer `&pool_[i]` becomes the index
  `i`, and `nullptr` becomes `none`, so every internal link is an `Option Nat`.
- `std::size_t` values live in `Nat`; the only place 64-bit wraparound is
  observable is the unguarded `--active_count_`, modelled by `sub1`
  (subtraction modulo `2 ^ 64`).
- Undefined behaviour (out-of-bounds element access, dereference of a null or
  dangling pointer) makes an operation return `none`: each fallible operation
  returns `Option`.
- The raw pointer comparison `first_available_ < pool_[index].next_` in
  `IndexedObjectPool::deactivate` compares machine addresses; `addrVal` maps a
  link to its numeric address rank (`nullptr` = 0, `&pool_[i]` = `base + i`,
  with `base > 0`), which preserves exactly the order of the addresses.
- The stored objects of type `T` are modelled as `Nat` (the pools never
  inspect them); `new PoolUnit<T>[n]` value-initialises every slot, which the
  model writes as `List.replicate n defUnit`.
-/

namespace ktp

/-- Modulus of `std::size_t` on the 64-bit targets the repository builds for. -/
def W : Nat := 2 ^ 64

/-- The effect of `++count` on a `std::size_t` counter. -/
def add1 (c : Nat) : Nat := (c + 1) % W

/-- The effect of `--count` on a `std::size_t` counter: wraps at zero. -/
def sub1 (c : Nat) : Nat := (c + (W - 1)) % W

/-- Read the element at position `i`, `none` when `i` is out of range
(an out-of-range access in the C++ source is undefined behaviour). -/
def nth {α : Type} : List α → Nat → Option α
  | [], _ => none
  | a :: _, 0 => some a
  | _ :: l, n + 1 => nth l n

/-- Write the element at position `i` (no effect out of range; the model only
uses it at positions already checked to be in range). -/
def setN {α : Type} : List α → Nat → α → List α
  | [], _, _ => []
  | _ :: l, 0, b => b :: l
  | a :: l, n + 1, b => a :: setN l n b

/-- The list `[i, i+1, ..., i+n-1]`. -/
def tabFrom {α : Type} (f : Nat → α) : Nat → Nat → List α
  | _, 0 => []
  | i, n + 1 => f i :: tabFrom f (i + 1) n

/-- Apply `f` position-wise, positions counted from `i`. -/
def mapFrom {α : Type} (f : Nat → α → α) : Nat → List α → List α
  | _, [] => []
  | i, a :: l => f i a :: mapFrom f (i + 1) l

/-- Numeric rank of a link's machine address: `nullptr` is address 0 and
`&pool_[i]` is `base + i * sizeof(unit)` with `base > 0`, so ranking `none`
as `0` and `some i` as `i + 1` preserves the address order. -/
def addrVal : Option Nat → Nat
  | none => 0
  | some i => i + 1

/-- Slot of the basic pool: `PoolUnit<T>` (`active_`, `next_`, `object_`). -/
structure PoolUnit where
  active_ : Bool
  next_ : Option Nat
  object_ : Nat
deriving DecidableEq

/-- A value-initialised `PoolUnit<T>`: inactive, null link, default object. -/
def defUnit : PoolUnit := { active_ := false, next_ := none, object_ := 0 }

/-- State of `ktp::ObjectPool<T>`: head of the free list, slot storage,
active counter and capacity.  A moved-from pool has `pool_ = []` (the model
does not distinguish a null storage pointer from a zero-length allocation:
every element access on either is undefined behaviour). -/
structure ObjectPool where
  first_available_ : Option Nat
  pool_ : List PoolUnit
  active_count_ : Nat
  capacity_ : Nat
deriving DecidableEq

/-- Slot of the indexed pool: `IndexedPoolUnit<T>`. -/
structure IndexedPoolUnit where
  active_ : Bool
  index_ : Nat
  next_ : Option Nat
  object_ : Nat
deriving DecidableEq

/-- A value-initialised `IndexedPoolUnit<T>`. -/
def defIUnit : IndexedPoolUnit :=
  { active_ := false, index_ := 0, next_ := none, object_ := 0 }

/-- State of `ktp::IndexedObjectPool<T>`. -/
structure IndexedObjectPool where
  first_available_ : Option Nat
  pool_ : List IndexedPoolUnit
  active_count_ : Nat
  capacity_ : Nat
  highest_active_index_ : Nat
deriving DecidableEq

/-- Per-slot effect of the loop in `ObjectPool::clear()` on the slot at
position `i`: deactivate it and thread it to its successor (the last slot
threads to null). -/
def clearUnitB (cap i : Nat) (u : PoolUnit) : PoolUnit :=
  if i < cap then
    { u with active_ := false
             next_ := if i + 1 = cap then none else some (i + 1) }
  else u

/-- `ObjectPool::clear()`: reset the counter and rebuild the free list
`slot[0] -> slot[1] -> ... -> slot[capacity-1] -> none`, marking every slot
inactive.  The loop writes `pool_[i]` for every `i < capacity_` and the final
statement writes `pool_[capacity_ - 1]`; with `capacity_ == 0` the latter is
an index underflow (out-of-bounds write, undefined behaviour), and with a
storage shorter than `capacity_` the loop itself goes out of bounds. -/
def ObjectPool.clear (p : ObjectPool) : Option ObjectPool :=
  if p.capacity_ = 0 then none
  else if p.pool_.length < p.capacity_ then none
  else some
    { first_available_ := some 0
      pool_ := mapFrom (clearUnitB p.capacity_) 0 p.pool_
      active_count_ := 0
      capacity_ := p.capacity_ }

/-- `ObjectPool::ObjectPool(capacity)`: allocate `capacity` value-initialised
slots (`inflatePool`) and call `clear()`. -/
def ObjectPool.construct (capacity : Nat) : Option ObjectPool :=
  ObjectPool.clear
    { first_available_ := none
      pool_ := List.replicate capacity defUnit
      active_count_ := 0
      capacity_ := capacity }

/-- `ObjectPool::activate()`: if the free-list head is non-null, mark it
active, advance the head, bump the counter and return a pointer to the slot's
object (modelled as the slot's index); otherwise return `nullptr` (modelled
as `some (none, p)`).  The outer `none` is undefined behaviour (a dangling
head). -/
def ObjectPool.activate (p : ObjectPool) : Option (Option Nat × ObjectPool) :=
  match p.first_available_ with
  | none => some (none, p)
  | some i =>
    match nth p.pool_ i with
    | none => none
    | some u =>
      some (some i,
        { p with pool_ := setN p.pool_ i { u with active_ := true }
                 first_available_ := u.next_
                 active_count_ := add1 p.active_count_ })

/-- `ObjectPool::active(index)`: `pool_[index].active_`, with no bounds
check; `none` models the out-of-bounds (undefined-behaviour) access. -/
def ObjectPool.active (p : ObjectPool) (index : Nat) : Option Bool :=
  (nth p.pool_ index).map (·.active_)

/-- `ObjectPool::activeCount()`. -/
def ObjectPool.activeCount (p : ObjectPool) : Nat := p.active_count_

/-- `ObjectPool::capacity()`. -/
def ObjectPool.capacity (p : ObjectPool) : Nat := p.capacity_

/-- `ObjectPool::deactivate(index)`: when `index < capacity_`, mark the slot
inactive, push it on the front of the free list and decrement the counter
(no check that the slot was active, and an unguarded `--active_count_`);
otherwise do nothing.  `none` models the out-of-bounds access that happens
when the storage is shorter than `capacity_` (moved-from pool). -/
def ObjectPool.deactivate (p : ObjectPool) (index : Nat) : Option ObjectPool :=
  if index < p.capacity_ then
    match nth p.pool_ index with
    | none => none
    | some u =>
      some
        { p with pool_ := setN p.pool_ index
                   { u with active_ := false, next_ := p.first_available_ }
                 first_available_ := some index
                 active_count_ := sub1 p.active_count_ }
  else some p

/-- `ObjectPool::operator=(ObjectPool&&)` for two distinct pool objects,
returning `(target after, source after)`: the target takes the source's
counter, capacity, head and storage (its own storage is `delete[]`d); the
source keeps its counter and capacity but its head and storage pointers are
exchanged with `nullptr`.  The move constructor delegates to this. -/
def ObjectPool.moveAssign (tgt src : ObjectPool) : ObjectPool × ObjectPool :=
  ({ first_available_ := src.first_available_
     pool_ := src.pool_
     active_count_ := src.active_count_
     capacity_ := src.capacity_ },
   { src with first_available_ := none, pool_ := [] })

/-- Per-slot effect of the loop in `IndexedObjectPool::clear()`. -/
def clearUnitI (cap i : Nat) (u : IndexedPoolUnit) : IndexedPoolUnit :=
  if i < cap then
    { u with active_ := false
             index_ := i
             next_ := if i + 1 = cap then none else some (i + 1) }
  else u

/-- `IndexedObjectPool::clear()`: like the basic `clear()` and additionally
stamps each slot with its own index and resets `highest_active_index_`. -/
def IndexedObjectPool.clear (p : IndexedObjectPool) : Option IndexedObjectPool :=
  if p.capacity_ = 0 then none
  else if p.pool_.length < p.capacity_ then none
  else some
    { first_available_ := some 0
      pool_ := mapFrom (clearUnitI p.capacity_) 0 p.pool_
      active_count_ := 0
      capacity_ := p.capacity_
      highest_active_index_ := 0 }

/-- `IndexedObjectPool::IndexedObjectPool(capacity)`. -/
def IndexedObjectPool.construct (capacity : Nat) : Option IndexedObjectPool :=
  IndexedObjectPool.clear
    { first_available_ := none
      pool_ := List.replicate capacity defIUnit
      active_count_ := 0
      capacity_ := capacity
      highest_active_index_ := 0 }

/-- `IndexedObjectPool::activate()`: like the basic pool, plus the update of
`highest_active_index_` from the activated slot's `index_` field. -/
def IndexedObjectPool.activate (p : IndexedObjectPool) :
    Option (Option Nat × IndexedObjectPool) :=
  match p.first_available_ with
  | none => some (none, p)
  | some i =>
    match nth p.pool_ i with
    | none => none
    | some u =>
      some (some i,
        { p with pool_ := setN p.pool_ i { u with active_ := true }
                 first_available_ := u.next_
                 active_count_ := add1 p.active_count_
                 highest_active_index_ :=
                   if u.index_ > p.highest_active_index_ then u.index_
                   else p.highest_active_index_ })

/-- `IndexedObjectPool::active(index)`: unchecked `pool_[index].active_`. -/
def IndexedObjectPool.active (p : IndexedObjectPool) (index : Nat) : Option Bool :=
  (nth p.pool_ index).map (·.active_)

/-- `IndexedObjectPool::activeCount()`. -/
def IndexedObjectPool.activeCount (p : IndexedObjectPool) : Nat := p.active_count_

/-- `IndexedObjectPool::capacity()`. -/
def IndexedObjectPool.capacity (p : IndexedObjectPool) : Nat := p.capacity_

/-- `IndexedObjectPool::highestActiveIndex()`. -/
def IndexedObjectPool.highestActiveIndex (p : IndexedObjectPool) : Nat :=
  p.highest_active_index_

/-- The free-list relinking step of `IndexedObjectPool::deactivate`: after
`pool_[index].active_ = false`, the slot is inserted either after the current
head (when `first_available_ < pool_[index].next_`, an address comparison
against the slot's stale link) or at the head.  Returns the new storage and
the new head; `none` is the null-head dereference `first_available_->next_`
(undefined behaviour) or a dangling access. -/
def relinkI (p : IndexedObjectPool) (index : Nat) (u : IndexedPoolUnit) :
    Option (List IndexedPoolUnit × Option Nat) :=
  if addrVal p.first_available_ < addrVal u.next_ then
    match p.first_available_ with
    | none => none
    | some f =>
      match nth (setN p.pool_ index { u with active_ := false }) f with
      | none => none
      | some fu =>
        match nth (setN (setN p.pool_ index { u with active_ := false }) f
            { fu with next_ := some index }) index with
        | none => none
        | some u2 =>
          some (setN (setN (setN p.pool_ index { u with active_ := false }) f
              { fu with next_ := some index }) index { u2 with next_ := fu.next_ },
            p.first_available_)
  else
    some (setN p.pool_ index
        { u with active_ := false, next_ := p.first_available_ },
      some index)

/-- The reverse scan of `IndexedObjectPool::deactivate`
(`for (i = highest_active_index_ - 1; i != (size_t)-1; --i)`): first active
slot at or below the given start position; `some none` when none is found,
outer `none` on an out-of-bounds read. -/
def scanDown (pl : List IndexedPoolUnit) : Nat → Option (Option Nat)
  | 0 =>
    match nth pl 0 with
    | none => none
    | some u => if u.active_ then some (some 0) else some none
  | k + 1 =>
    match nth pl (k + 1) with
    | none => none
    | some u => if u.active_ then some (some (k + 1)) else scanDown pl k

/-- The tail of `IndexedObjectPool::deactivate` after the relink: decrement
the counter and, when the deactivated slot held `highest_active_index_`,
recompute it (early return at index 0, otherwise the reverse scan). -/
def updateHighI (p : IndexedObjectPool) (index : Nat)
    (pl : List IndexedPoolUnit) (fa : Option Nat) : Option IndexedObjectPool :=
  if p.highest_active_index_ = index then
    if index = 0 then
      some { p with pool_ := pl, first_available_ := fa
                    active_count_ := sub1 p.active_count_ }
    else
      match scanDown pl (index - 1) with
      | none => none
      | some (some i) =>
        some { p with pool_ := pl, first_available_ := fa
                      active_count_ := sub1 p.active_count_
                      highest_active_index_ := i }
      | some none =>
        some { p with pool_ := pl, first_available_ := fa
                      active_count_ := sub1 p.active_count_
                      highest_active_index_ := 0 }
  else
    some { p with pool_ := pl, first_available_ := fa
                  active_count_ := sub1 p.active_count_ }

/-- `IndexedObjectPool::deactivate(index)`: bounds-gate, mark inactive,
relink into the free list (low-index bias via an address comparison), then
decrement the counter and maintain `highest_active_index_`. -/
def IndexedObjectPool.deactivate (p : IndexedObjectPool) (index : Nat) :
    Option IndexedObjectPool :=
  if index < p.capacity_ then
    match nth p.pool_ index with
    | none => none
    | some u =>
      match relinkI p index u with
      | none => none
      | some (pl, fa) => updateHighI p index pl fa
  else some p

/-- `IndexedObjectPool::operator=(IndexedObjectPool&&)` for two distinct
pool objects, returning `(target after, source after)`. -/
def IndexedObjectPool.moveAssign (tgt src : IndexedObjectPool) :
    IndexedObjectPool × IndexedObjectPool :=
  ({ first_available_ := src.first_available_
     pool_ := src.pool_
     active_count_ := src.active_count_
     capacity_ := src.capacity_
     highest_active_index_ := src.highest_active_index_ },
   { src with first_available_ := none, pool_ := [] })

/-- One public mutating call on a pool. -/
inductive Op where
  | activate : Op
  | deactivate : Nat → Op
  | clear : Op
deriving DecidableEq

/-- One operation on the basic pool (the value returned by `activate` is
dropped; `none` is undefined behaviour). -/
def stepB (p : ObjectPool) : Op → Option ObjectPool
  | Op.activate => (ObjectPool.activate p).map (·.2)
  | Op.deactivate i => ObjectPool.deactivate p i
  | Op.clear => ObjectPool.clear p

/-- Run a sequence of operations on the basic pool. -/
def runB (p : ObjectPool) : List Op → Option ObjectPool
  | [] => some p
  | op :: rest =>
    match stepB p op with
    | none => none
    | some p' => runB p' rest

/-- One operation on the indexed pool. -/
def stepI (p : IndexedObjectPool) : Op → Option IndexedObjectPool
  | Op.activate => (IndexedObjectPool.activate p).map (·.2)
  | Op.deactivate i => IndexedObjectPool.deactivate p i
  | Op.clear => IndexedObjectPool.clear p

/-- Run a sequence of operations on the indexed pool. -/
def runI (p : IndexedObjectPool) : List Op → Option IndexedObjectPool
  | [] => some p
  | op :: rest =>
    match stepI p op with
    | none => none
    | some p' => runI p' rest

/-- Whether the slot at `i` exists and is marked active (basic pool). -/
def activeFlagB (p : ObjectPool) (i : Nat) : Bool :=
  match nth p.pool_ i with
  | some u => u.active_
  | none => false

/-- Whether the slot at `i` exists and is marked active (indexed pool). -/
def activeFlagI (p : IndexedObjectPool) (i : Nat) : Bool :=
  match nth p.pool_ i with
  | some u => u.active_
  | none => false

/-- A call is within the usage discipline of the claims when `deactivate`
is only applied to the index of a currently active slot. -/
def okB (p : ObjectPool) : Op → Bool
  | Op.deactivate i => activeFlagB p i
  | _ => true

/-- Discipline of a single indexed-pool call. -/
def okI (p : IndexedObjectPool) : Op → Bool
  | Op.deactivate i => activeFlagI p i
  | _ => true

/-- `deactivate` is only ever applied to the index of a currently active
slot (checked along the run; vacuously true past an undefined step). -/
def disciplinedB (p : ObjectPool) : List Op → Bool
  | [] => true
  | op :: rest =>
    okB p op &&
    (match stepB p op with
     | none => true
     | some p' => disciplinedB p' rest)

/-- Discipline check for the indexed pool. -/
def disciplinedI (p : IndexedObjectPool) : List Op → Bool
  | [] => true
  | op :: rest =>
    okI p op &&
    (match stepI p op with
     | none => true
     | some p' => disciplinedI p' rest)

/-- Construct a basic pool and run a sequence of operations on it. -/
def runFromConstructB (capacity : Nat) (ops : List Op) : Option ObjectPool :=
  match ObjectPool.construct capacity with
  | none => none
  | some p => runB p ops

/-- Construct an indexed pool and run a sequence of operations on it. -/
def runFromConstructI (capacity : Nat) (ops : List Op) : Option IndexedObjectPool :=
  match IndexedObjectPool.construct capacity with
  | none => none
  | some p => runI p ops

/-- Discipline check for a run that starts at construction (basic pool). -/
def disciplinedFromConstructB (capacity : Nat) (ops : List Op) : Bool :=
  match ObjectPool.construct capacity with
  | none => true
  | some p => disciplinedB p ops

/-- Discipline check for a run that starts at construction (indexed pool). -/
def disciplinedFromConstructI (capacity : Nat) (ops : List Op) : Bool :=
  match IndexedObjectPool.construct capacity with
  | none => true
  | some p => disciplinedI p ops

/-- The free list as read off a slot storage: `chainF nf pool h l` holds when
following the links (through the projection `nf`) from the head `h` visits
exactly the slots listed in `l` and then reaches the null link. -/
def chainF {α : Type} (nf : α → Option Nat) (pool : List α) :
    Option Nat → List Nat → Bool
  | none, [] => true
  | none, _ :: _ => false
  | some _, [] => false
  | some i, j :: r =>
    (i == j) &&
      (match nth pool i with
       | none => false
       | some u => chainF nf pool (nf u) r)

/-- The index list `[i, i+1, ..., i+n-1]`. -/
def tabN : Nat → Nat → List Nat
  | _, 0 => []
  | i, n + 1 => i :: tabN (i + 1) n

theorem W_pos : 0 < W := by decide

theorem add1_eq {c : Nat} (h : c + 1 < W) : add1 c = c + 1 := Nat.mod_eq_of_lt h

theorem sub1_eq {c : Nat} (h1 : 1 ≤ c) (h2 : c < W) : sub1 c = c - 1 := by
  have h3 : c + (W - 1) = (c - 1) + W := by have := W_pos; omega
  rw [sub1, h3, Nat.add_mod_right, Nat.mod_eq_of_lt (by omega)]

theorem sub1_zero : sub1 0 = W - 1 := by
  rw [sub1, Nat.zero_add, Nat.mod_eq_of_lt (by have := W_pos; omega)]

@[simp]
theorem nth_nil {α : Type} (j : Nat) : nth ([] : List α) j = none := by
  cases j <;> rfl

@[simp]
theorem nth_cons_zero {α : Type} (a : α) (l : List α) : nth (a :: l) 0 = some a := rfl

@[simp]
theorem nth_cons_succ {α : Type} (a : α) (l : List α) (j : Nat) :
    nth (a :: l) (j + 1) = nth l j := rfl

theorem nth_lt_length {α : Type} {l : List α} {i : Nat} {a : α}
    (h : nth l i = some a) : i < l.length := by
  induction l generalizing i with
  | nil => simp at h
  | cons b l ih =>
    cases i with
    | zero => simp [List.length]
    | succ i =>
      simp only [nth_cons_succ] at h
      have := ih h
      simp [List.length]; omega

theorem nth_some_of_lt {α : Type} {l : List α} {i : Nat} (h : i < l.length) :
    ∃ a, nth l i = some a := by
  induction l generalizing i with
  | nil => simp at h
  | cons b l ih =>
    cases i with
    | zero => exact ⟨b, rfl⟩
    | succ i =>
      simp only [List.length_cons] at h
      exact ih (by omega)

theorem nth_eq_none {α : Type} {l : List α} {i : Nat} (h : l.length ≤ i) :
    nth l i = none := by
  induction l generalizing i with
  | nil => simp
  | cons b l ih =>
    cases i with
    | zero => simp [List.length] at h
    | succ i =>
      simp only [List.length_cons] at h
      simpa using ih (by omega)

@[simp]
theorem length_setN {α : Type} (l : List α) (i : Nat) (v : α) :
    (setN l i v).length = l.length := by
  induction l generalizing i with
  | nil => rfl
  | cons a l ih =>
    cases i with
    | zero => rfl
    | succ i => simpa [setN] using ih i

theorem nth_setN {α : Type} (l : List α) (i : Nat) (v : α) (j : Nat) :
    nth (setN l i v) j = if j = i then (nth l j).map (fun _ => v) else nth l j := by
  induction l generalizing i j with
  | nil => simp [setN]
  | cons a l ih =>
    cases i with
    | zero =>
      cases j with
      | zero => simp [setN]
      | succ j => simp [setN]
    | succ i =>
      cases j with
      | zero => simp [setN]
      | succ j =>
        simp only [setN, nth_cons_succ, ih, Nat.succ_eq_add_one]
        by_cases h : j = i <;> simp [h]

theorem nth_setN_self {α : Type} {l : List α} {i : Nat} {a : α} (v : α)
    (h : nth l i = some a) : nth (setN l i v) i = some v := by
  simp [nth_setN, h]

theorem nth_setN_ne {α : Type} (l : List α) {i : Nat} (v : α) {j : Nat}
    (h : j ≠ i) : nth (setN l i v) j = nth l j := by
  simp [nth_setN, h]

@[simp]
theorem length_tabFrom {α : Type} (f : Nat → α) (n i : Nat) :
    (tabFrom f i n).length = n := by
  induction n generalizing i with
  | zero => rfl
  | succ n ih => simpa [tabFrom] using ih (i + 1)

theorem nth_tabFrom {α : Type} (f : Nat → α) (n i j : Nat) :
    nth (tabFrom f i n) j = if j < n then some (f (i + j)) else none := by
  induction n generalizing i j with
  | zero => simp [tabFrom]
  | succ n ih =>
    cases j with
    | zero => simp [tabFrom]
    | succ j =>
      have h1 : i + 1 + j = i + (j + 1) := by omega
      simp only [tabFrom, nth_cons_succ, ih (i + 1) j, h1]
      by_cases h : j < n
      · simp [h, Nat.succ_lt_succ h]
      · simp [h, fun hc => h (Nat.lt_of_succ_lt_succ hc)]

@[simp]
theorem length_mapFrom {α : Type} (f : Nat → α → α) (l : List α) (i : Nat) :
    (mapFrom f i l).length = l.length := by
  induction l generalizing i with
  | nil => rfl
  | cons a l ih => simpa [mapFrom] using ih (i + 1)

theorem nth_mapFrom {α : Type} (f : Nat → α → α) (l : List α) (i j : Nat) :
    nth (mapFrom f i l) j = (nth l j).map (f (i + j)) := by
  induction l generalizing i j with
  | nil => simp [mapFrom]
  | cons a l ih =>
    cases j with
    | zero => simp [mapFrom]
    | succ j =>
      have h1 : i + 1 + j = i + (j + 1) := by omega
      simp only [mapFrom, nth_cons_succ, ih (i + 1) j, h1]

theorem nth_replicate {α : Type} (d : α) (n j : Nat) :
    nth (List.replicate n d) j = if j < n then some d else none := by
  induction n generalizing j with
  | zero => simp
  | succ n ih =>
    cases j with
    | zero => simp [List.replicate_succ]
    | succ j =>
      simp only [List.replicate_succ, nth_cons_succ, ih]
      by_cases h : j < n
      · simp [h, Nat.succ_lt_succ h]
      · simp [h, fun hc => h (Nat.lt_of_succ_lt_succ hc)]

theorem nth_ext {α : Type} {l₁ l₂ : List α} (h : ∀ j, nth l₁ j = nth l₂ j) :
    l₁ = l₂ := by
  induction l₁ generalizing l₂ with
  | nil =>
    cases l₂ with
    | nil => rfl
    | cons b l₂ => have := h 0; simp at this
  | cons a l₁ ih =>
    cases l₂ with
    | nil => have := h 0; simp at this
    | cons b l₂ =>
      have h0 := h 0
      simp only [nth_cons_zero, Option.some.injEq] at h0
      rw [h0, ih fun j => by simpa using h (j + 1)]

theorem mapFrom_replicate_eq_tabFrom {α : Type} (f : Nat → α → α) (g : Nat → α)
    (d : α) : ∀ (m i : Nat), (∀ j, i ≤ j → j < i + m → f j d = g j) →
    mapFrom f i (List.replicate m d) = tabFrom g i m := by
  intro m
  induction m with
  | zero => intro i _; rfl
  | succ m ih =>
    intro i h
    rw [List.replicate_succ]
    show f i d :: mapFrom f (i + 1) (List.replicate m d) = g i :: tabFrom g (i + 1) m
    rw [h i (Nat.le_refl i) (by omega), ih (i + 1) fun j hj1 hj2 => h j (by omega) (by omega)]

theorem mem_tabN {i n x : Nat} : x ∈ tabN i n ↔ i ≤ x ∧ x < i + n := by
  induction n generalizing i with
  | zero => simp [tabN]
  | succ n ih =>
    simp only [tabN, List.mem_cons] at *
    constructor
    · rintro (rfl | hx)
      · omega
      · have := (ih (i := i + 1)).mp hx; omega
    · rintro ⟨h1, h2⟩
      by_cases hx : x = i
      · exact Or.inl hx
      · exact Or.inr ((ih (i := i + 1)).mpr (by omega))

theorem nodup_tabN (n : Nat) : ∀ i : Nat, (tabN i n).Nodup := by
  induction n with
  | zero => intro i; simp [tabN]
  | succ n ih =>
    intro i
    refine List.nodup_cons.mpr ⟨fun hmem => ?_, ih (i + 1)⟩
    have := (mem_tabN (i := i + 1)).mp hmem
    omega

theorem chainF_cons {α : Type} (nf : α → Option Nat) (pool : List α)
    {i : Nat} (j : Nat) (r : List Nat) {u : α} (hu : nth pool i = some u) :
    chainF nf pool (some i) (j :: r) = ((i == j) && chainF nf pool (nf u) r) := by
  simp [chainF, hu]

theorem chainF_tabN {α : Type} (nf : α → Option Nat) (pl : List α) (cap : Nat)
    (h : ∀ j, j < cap → ∃ u, nth pl j = some u ∧
      nf u = (if j + 1 = cap then none else some (j + 1))) :
    ∀ m k, k + (m + 1) = cap → chainF nf pl (some k) (tabN k (m + 1)) = true := by
  intro m
  induction m with
  | zero =>
    intro k hk
    obtain ⟨u, hu, hnf⟩ := h k (by omega)
    rw [if_pos (by omega)] at hnf
    simp [tabN, chainF, hu, hnf]
  | succ m ih =>
    intro k hk
    obtain ⟨u, hu, hnf⟩ := h k (by omega)
    rw [if_neg (by omega)] at hnf
    show chainF nf pl (some k) (k :: tabN (k + 1) (m + 1)) = true
    rw [chainF_cons nf pl k (tabN (k + 1) (m + 1)) hu, hnf]
    simp [ih (k + 1) (by omega)]

/-- The result of `ObjectPool::ObjectPool(1)`: one inactive slot, a free list
holding just that slot. -/
def poolB1 : ObjectPool :=
  { first_available_ := some 0, pool_ := [defUnit], active_count_ := 0, capacity_ := 1 }

/-- The result of `IndexedObjectPool::IndexedObjectPool(1)`. -/
def poolI1 : IndexedObjectPool :=
  { first_available_ := some 0, pool_ := [defIUnit], active_count_ := 0
    capacity_ := 1, highest_active_index_ := 0 }

/-- Basic pool of capacity 1 whose only slot is active (the state reached
from `ObjectPool(1)` by one `activate()` call). -/
def poolB1Act : ObjectPool :=
  { first_available_ := none
    pool_ := [{ active_ := true, next_ := none, object_ := 0 }]
    active_count_ := 1, capacity_ := 1 }

/-- Basic pool of capacity 1 after `ObjectPool(1)` followed by
`deactivate(0)` on the still-inactive slot: the slot links to itself and the
counter has wrapped around to `2 ^ 64 - 1`. -/
def poolB1Dead : ObjectPool :=
  { first_available_ := some 0
    pool_ := [{ active_ := false, next_ := some 0, object_ := 0 }]
    active_count_ := W - 1, capacity_ := 1 }

/-- Indexed pool of capacity 2 after `IndexedObjectPool(2)` followed by
`deactivate(1)` on the still-inactive slot 1: the free list is the cycle
`1 -> 0 -> 1 -> ...` and the counter has wrapped around. -/
def poolI2Dead : IndexedObjectPool :=
  { first_available_ := some 1
    pool_ := [{ active_ := false, index_ := 0, next_ := some 1, object_ := 0 },
              { active_ := false, index_ := 1, next_ := some 0, object_ := 0 }]
    active_count_ := W - 1, capacity_ := 2, highest_active_index_ := 0 }

theorem constructB_eq (n : Nat) (h : 0 < n) :
    ObjectPool.construct n = some
      { first_available_ := some 0
        pool_ := mapFrom (clearUnitB n) 0 (List.replicate n defUnit)
        active_count_ := 0
        capacity_ := n } := by
  rw [ObjectPool.construct, ObjectPool.clear,
    if_neg (show ¬ (n = 0) by omega),
    if_neg (show ¬ ((List.replicate n defUnit).length < n) by
      rw [List.length_replicate]; omega)]

theorem constructI_eq (n : Nat) (h : 0 < n) :
    IndexedObjectPool.construct n = some
      { first_available_ := some 0
        pool_ := mapFrom (clearUnitI n) 0 (List.replicate n defIUnit)
        active_count_ := 0
        capacity_ := n
        highest_active_index_ := 0 } := by
  rw [IndexedObjectPool.construct, IndexedObjectPool.clear,
    if_neg (show ¬ (n = 0) by omega),
    if_neg (show ¬ ((List.replicate n defIUnit).length < n) by
      rw [List.length_replicate]; omega)]

/-- C1.  The claim says construction with capacity 0 fails with
`InvalidArgument` and never reaches undefined behaviour.  The code has no
such check: `clear()` runs its final write `pool_[capacity_ - 1].next_ =
nullptr` with `capacity_ == 0`, an index underflow and out-of-bounds write
(undefined behaviour, modelled by `none`).  The second half of the claim is
accurate: a positive capacity allocates exactly that many slots. -/
theorem c1_construct_capacity (n : Nat) (h : 0 < n) :
    ObjectPool.construct 0 = none ∧ IndexedObjectPool.construct 0 = none ∧
    (∃ p, ObjectPool.construct n = some p ∧ p.pool_.length = n ∧
      ObjectPool.capacity p = n ∧ ObjectPool.activeCount p = 0) ∧
    (∃ q, IndexedObjectPool.construct n = some q ∧ q.pool_.length = n ∧
      IndexedObjectPool.capacity q = n ∧ IndexedObjectPool.activeCount q = 0) := by
  refine ⟨rfl, rfl,
    ⟨_, constructB_eq n h, by simp, rfl, rfl⟩,
    ⟨_, constructI_eq n h, by simp, rfl, rfl⟩⟩

/-- C1 witness: the theorem instantiated at capacity 3. -/
theorem c1_construct_capacity_witness :
    ObjectPool.construct 0 = none ∧ IndexedObjectPool.construct 0 = none ∧
    (∃ p, ObjectPool.construct 3 = some p ∧ p.pool_.length = 3 ∧
      ObjectPool.capacity p = 3 ∧ ObjectPool.activeCount p = 0) ∧
    (∃ q, IndexedObjectPool.construct 3 = some q ∧ q.pool_.length = 3 ∧
      IndexedObjectPool.capacity q = 3 ∧ IndexedObjectPool.activeCount q = 0) :=
  c1_construct_capacity 3 (by decide)

/-- C2.  The claimed scenario — capacity 5, all five slots active,
`deactivate(2)` — never reaches the claimed reuse order: with the pool full,
`first_available_` is null while the stale link `pool_[2].next_` is
`&pool_[3]`, so the address comparison sends `deactivate` into the branch
that dereferences the null head (`first_available_->next_`), which is
undefined behaviour (a crash), modelled by `none`. -/
theorem c2_indexed_reuse_crash :
    runFromConstructI 5 [Op.activate, Op.activate, Op.activate, Op.activate,
      Op.activate, Op.deactivate 2] = none ∧
    disciplinedFromConstructI 5 [Op.activate, Op.activate, Op.activate,
      Op.activate, Op.activate, Op.deactivate 2] = true := by
  constructor <;> rfl

/-- C3 counterexample.  `active(index)` is not bounds-checked: on the pool
built by `ObjectPool(1)` — a real, reachable pool — the call `active(1)`
reads `pool_[1]` out of bounds (undefined behaviour, modelled by `none`),
refuting the claim that its behaviour is defined for every index. -/
theorem c3_active_oob_counterexample :
    ObjectPool.construct 1 = some poolB1 ∧ ObjectPool.active poolB1 1 = none ∧
    IndexedObjectPool.construct 1 = some poolI1 ∧
    IndexedObjectPool.active poolI1 1 = none := by
  refine ⟨rfl, rfl, rfl, rfl⟩

/-- C3 amended: `active(index)` performs no bounds check.  For an index
backed by the storage it returns that slot's active flag; for an index at or
beyond the end of the storage the access is out of bounds (undefined
behaviour, modelled by `none`) — in particular for every index `>= capacity`
on an intact pool. -/
theorem c3_active_unchecked :
    (∀ (p : ObjectPool) (i : Nat) (u : PoolUnit),
      nth p.pool_ i = some u → ObjectPool.active p i = some u.active_) ∧
    (∀ (p : ObjectPool) (i : Nat),
      p.pool_.length ≤ i → ObjectPool.active p i = none) ∧
    (∀ (q : IndexedObjectPool) (i : Nat) (u : IndexedPoolUnit),
      nth q.pool_ i = some u → IndexedObjectPool.active q i = some u.active_) ∧
    (∀ (q : IndexedObjectPool) (i : Nat),
      q.pool_.length ≤ i → IndexedObjectPool.active q i = none) := by
  refine ⟨fun p i u hu => ?_, fun p i hi => ?_, fun q i u hu => ?_, fun q i hi => ?_⟩
  · rw [ObjectPool.active, hu]; rfl
  · rw [ObjectPool.active, nth_eq_none hi]; rfl
  · rw [IndexedObjectPool.active, hu]; rfl
  · rw [IndexedObjectPool.active, nth_eq_none hi]; rfl

/-- C3 witness: the amended theorem applied to the capacity-1 pools. -/
theorem c3_active_unchecked_witness :
    ObjectPool.active poolB1 0 = some false ∧
    ObjectPool.active poolB1 1 = none ∧
    IndexedObjectPool.active poolI1 0 = some false ∧
    IndexedObjectPool.active poolI1 1 = none :=
  ⟨c3_active_unchecked.1 poolB1 0 defUnit rfl,
   c3_active_unchecked.2.1 poolB1 1 (by decide),
   c3_active_unchecked.2.2.1 poolI1 0 defIUnit rfl,
   c3_active_unchecked.2.2.2 poolI1 1 (by decide)⟩

/-- C4 counterexample.  Moving out of the reachable pool built by
`ObjectPool(1)` leaves the source's `capacity_` untouched (the move
assignment exchanges only `first_available_` and `pool_` with null), so
`A.capacity()` still returns 1 — the claim says it must be 0. -/
theorem c4_moved_from_capacity_counterexample :
    ObjectPool.construct 1 = some poolB1 ∧
    ObjectPool.capacity (ObjectPool.moveAssign poolB1 poolB1).2 ≠ 0 ∧
    IndexedObjectPool.construct 1 = some poolI1 ∧
    IndexedObjectPool.capacity (IndexedObjectPool.moveAssign poolI1 poolI1).2 ≠ 0 := by
  refine ⟨rfl, by decide, rfl, by decide⟩

/-- C4 amended: after moving pool `A` into `B` (distinct objects), `B` has
the `activeCount`, `capacity`, free-list head and slot contents `A` had
immediately before the move, and `A` is left with no storage and a null head
(safe to destroy, since its destructor then runs `delete[]` on null) — but
`A.capacity()` and `A.activeCount()` keep their pre-move values; in
particular `A.capacity()` is not reset to 0. -/
theorem c4_move_transfers_state :
    (∀ t s : ObjectPool,
      (ObjectPool.moveAssign t s).1.pool_ = s.pool_ ∧
      ObjectPool.activeCount (ObjectPool.moveAssign t s).1 = ObjectPool.activeCount s ∧
      ObjectPool.capacity (ObjectPool.moveAssign t s).1 = ObjectPool.capacity s ∧
      (ObjectPool.moveAssign t s).1.first_available_ = s.first_available_ ∧
      (ObjectPool.moveAssign t s).2.pool_ = [] ∧
      (ObjectPool.moveAssign t s).2.first_available_ = none ∧
      ObjectPool.capacity (ObjectPool.moveAssign t s).2 = ObjectPool.capacity s ∧
      ObjectPool.activeCount (ObjectPool.moveAssign t s).2 = ObjectPool.activeCount s) ∧
    (∀ t s : IndexedObjectPool,
      (IndexedObjectPool.moveAssign t s).1.pool_ = s.pool_ ∧
      IndexedObjectPool.activeCount (IndexedObjectPool.moveAssign t s).1 =
        IndexedObjectPool.activeCount s ∧
      IndexedObjectPool.capacity (IndexedObjectPool.moveAssign t s).1 =
        IndexedObjectPool.capacity s ∧
      (IndexedObjectPool.moveAssign t s).1.first_available_ = s.first_available_ ∧
      IndexedObjectPool.highestActiveIndex (IndexedObjectPool.moveAssign t s).1 =
        IndexedObjectPool.highestActiveIndex s ∧
      (IndexedObjectPool.moveAssign t s).2.pool_ = [] ∧
      (IndexedObjectPool.moveAssign t s).2.first_available_ = none ∧
      IndexedObjectPool.capacity (IndexedObjectPool.moveAssign t s).2 =
        IndexedObjectPool.capacity s ∧
      IndexedObjectPool.activeCount (IndexedObjectPool.moveAssign t s).2 =
        IndexedObjectPool.activeCount s) :=
  ⟨fun t s => ⟨rfl, rfl, rfl, rfl, rfl, rfl, rfl, rfl⟩,
   fun t s => ⟨rfl, rfl, rfl, rfl, rfl, rfl, rfl, rfl, rfl⟩⟩

/-- C8.  Basic pool LIFO reuse: deactivating the active slot `i` makes it
the head of the free list, and the next `activate()` call hands exactly that
slot back (and marks it active again). -/
theorem c8_basic_lifo (p : ObjectPool) (i : Nat) (u : PoolUnit)
    (hlen : p.pool_.length = p.capacity_)
    (hu : nth p.pool_ i = some u) (hact : u.active_ = true) :
    ∃ p', ObjectPool.deactivate p i = some p' ∧ p'.first_available_ = some i ∧
      ∃ p'', ObjectPool.activate p' = some (some i, p'') ∧
        ObjectPool.active p'' i = some true := by
  have hcap : i < p.capacity_ := hlen ▸ nth_lt_length hu
  rw [ObjectPool.deactivate, if_pos hcap, hu]
  refine ⟨_, rfl, rfl, ?_⟩
  rw [ObjectPool.activate]
  simp only [nth_setN_self _ hu]
  refine ⟨_, rfl, ?_⟩
  rw [ObjectPool.active]
  have h1 : nth (setN p.pool_ i { u with active_ := false, next_ := p.first_available_ }) i =
      some { u with active_ := false, next_ := p.first_available_ } :=
    nth_setN_self _ hu
  rw [nth_setN_self _ h1]
  rfl

/-- C8 witness: the theorem applied to the fully active capacity-1 pool. -/
theorem c8_basic_lifo_witness :
    ∃ p', ObjectPool.deactivate poolB1Act 0 = some p' ∧
      p'.first_available_ = some 0 ∧
      ∃ p'', ObjectPool.activate p' = some (some 0, p'') ∧
        ObjectPool.active p'' 0 = some true :=
  c8_basic_lifo poolB1Act 0 { active_ := true, next_ := none, object_ := 0 }
    rfl rfl rfl

/-- C10.  `deactivate(index)` performs no activity check: for any in-range,
storage-backed index — active or not — the basic pool unconditionally marks
the slot inactive, pushes it onto the free-list head and decrements
`active_count_` with wraparound (`sub1`).  Consequently a second deactivate
without an intervening activate corrupts the pool: after `ObjectPool(1)`,
`deactivate(0)` on the already-free slot 0 makes the free list the self-loop
`0 -> 0 -> ...` and wraps `active_count_` from 0 to `2 ^ 64 - 1`; after
`IndexedObjectPool(2)`, `deactivate(1)` on the already-free slot 1 makes the
free list the cycle `1 -> 0 -> 1 -> ...` and wraps the counter likewise. -/
theorem c10_deactivate_no_activity_check :
    (∀ (p : ObjectPool) (index : Nat) (u : PoolUnit),
      index < p.capacity_ → nth p.pool_ index = some u →
      ObjectPool.deactivate p index = some
        { p with pool_ := setN p.pool_ index
                   { u with active_ := false, next_ := p.first_available_ }
                 first_available_ := some index
                 active_count_ := sub1 p.active_count_ }) ∧
    (runFromConstructB 1 [Op.deactivate 0] = some poolB1Dead ∧
      poolB1Dead.first_available_ = some 0 ∧
      (nth poolB1Dead.pool_ 0).map PoolUnit.next_ = some (some 0) ∧
      ObjectPool.activeCount poolB1Dead = W - 1 ∧
      ObjectPool.active poolB1Dead 0 = some false) ∧
    (runFromConstructI 2 [Op.deactivate 1] = some poolI2Dead ∧
      poolI2Dead.first_available_ = some 1 ∧
      (nth poolI2Dead.pool_ 1).map IndexedPoolUnit.next_ = some (some 0) ∧
      (nth poolI2Dead.pool_ 0).map IndexedPoolUnit.next_ = some (some 1) ∧
      IndexedObjectPool.activeCount poolI2Dead = W - 1 ∧
      IndexedObjectPool.active poolI2Dead 1 = some false) := by
  refine ⟨fun p index u hcap hu => ?_, ⟨?_, rfl, rfl, rfl, rfl⟩, ⟨?_, rfl, rfl, rfl, rfl, rfl⟩⟩
  · rw [ObjectPool.deactivate, if_pos hcap, hu]
  · rfl
  · rfl

theorem clearUnitB_object (cap i : Nat) (u : PoolUnit) :
    (clearUnitB cap i u).object_ = u.object_ := by
  rw [clearUnitB]; split <;> rfl

theorem clearUnitB_active (cap i : Nat) (u : PoolUnit) (h : i < cap) :
    (clearUnitB cap i u).active_ = false := by
  rw [clearUnitB, if_pos h]

theorem clearUnitB_next (cap i : Nat) (u : PoolUnit) (h : i < cap) :
    (clearUnitB cap i u).next_ = if i + 1 = cap then none else some (i + 1) := by
  rw [clearUnitB, if_pos h]

theorem clearUnitI_object (cap i : Nat) (u : IndexedPoolUnit) :
    (clearUnitI cap i u).object_ = u.object_ := by
  rw [clearUnitI]; split <;> rfl

theorem clearUnitI_active (cap i : Nat) (u : IndexedPoolUnit) (h : i < cap) :
    (clearUnitI cap i u).active_ = false := by
  rw [clearUnitI, if_pos h]

theorem clearUnitI_next (cap i : Nat) (u : IndexedPoolUnit) (h : i < cap) :
    (clearUnitI cap i u).next_ = if i + 1 = cap then none else some (i + 1) := by
  rw [clearUnitI, if_pos h]

theorem clearUnitI_index (cap i : Nat) (u : IndexedPoolUnit) (h : i < cap) :
    (clearUnitI cap i u).index_ = i := by
  rw [clearUnitI, if_pos h]

theorem clearB_some (p : ObjectPool) (h1 : 0 < p.capacity_)
    (h2 : ¬ p.pool_.length < p.capacity_) :
    ObjectPool.clear p = some
      { first_available_ := some 0
        pool_ := mapFrom (clearUnitB p.capacity_) 0 p.pool_
        active_count_ := 0
        capacity_ := p.capacity_ } := by
  rw [ObjectPool.clear, if_neg (by omega), if_neg h2]

theorem clearI_some (p : IndexedObjectPool) (h1 : 0 < p.capacity_)
    (h2 : ¬ p.pool_.length < p.capacity_) :
    IndexedObjectPool.clear p = some
      { first_available_ := some 0
        pool_ := mapFrom (clearUnitI p.capacity_) 0 p.pool_
        active_count_ := 0
        capacity_ := p.capacity_
        highest_active_index_ := 0 } := by
  rw [IndexedObjectPool.clear, if_neg (by omega), if_neg h2]

theorem nth_clearedB {p : ObjectPool} {j : Nat} :
    nth (mapFrom (clearUnitB p.capacity_) 0 p.pool_) j =
      (nth p.pool_ j).map (clearUnitB p.capacity_ j) := by
  rw [nth_mapFrom]; norm_num

theorem nth_clearedI {p : IndexedObjectPool} {j : Nat} :
    nth (mapFrom (clearUnitI p.capacity_) 0 p.pool_) j =
      (nth p.pool_ j).map (clearUnitI p.capacity_ j) := by
  rw [nth_mapFrom]; norm_num

/-- C9.  `clear()` on any intact pool (storage of exactly `capacity_` slots,
positive capacity — true of every pool reachable without moving out of it):
the active count becomes 0, the capacity and the storage (its extent and the
stored object values, hence the slot addresses) are unchanged, every slot is
inactive, and the free list is rebuilt as the ascending chain
`slot[0] -> slot[1] -> ... -> slot[capacity-1] -> none` — for both variants,
regardless of the prior activation pattern. -/
theorem c9_clear_resets (p : ObjectPool) (q : IndexedObjectPool)
    (hp1 : 0 < p.capacity_) (hp2 : p.pool_.length = p.capacity_)
    (hq1 : 0 < q.capacity_) (hq2 : q.pool_.length = q.capacity_) :
    (∃ p', ObjectPool.clear p = some p' ∧
      ObjectPool.activeCount p' = 0 ∧
      ObjectPool.capacity p' = ObjectPool.capacity p ∧
      p'.pool_.length = p.pool_.length ∧
      p'.first_available_ = some 0 ∧
      chainF PoolUnit.next_ p'.pool_ p'.first_available_ (tabN 0 p.capacity_) = true ∧
      (∀ i u, nth p'.pool_ i = some u → u.active_ = false) ∧
      (∀ i, (nth p'.pool_ i).map PoolUnit.object_ =
        (nth p.pool_ i).map PoolUnit.object_)) ∧
    (∃ q', IndexedObjectPool.clear q = some q' ∧
      IndexedObjectPool.activeCount q' = 0 ∧
      IndexedObjectPool.capacity q' = IndexedObjectPool.capacity q ∧
      q'.pool_.length = q.pool_.length ∧
      q'.first_available_ = some 0 ∧
      chainF IndexedPoolUnit.next_ q'.pool_ q'.first_available_
        (tabN 0 q.capacity_) = true ∧
      (∀ i u, nth q'.pool_ i = some u → u.active_ = false) ∧
      (∀ i, (nth q'.pool_ i).map IndexedPoolUnit.object_ =
        (nth q.pool_ i).map IndexedPoolUnit.object_)) := by
  constructor
  · refine ⟨_, clearB_some p hp1 (by omega), rfl, rfl, by simp, rfl, ?_, ?_, ?_⟩
    · show chainF PoolUnit.next_ (mapFrom (clearUnitB p.capacity_) 0 p.pool_)
        (some 0) (tabN 0 p.capacity_) = true
      obtain ⟨m, hm⟩ : ∃ m, p.capacity_ = m + 1 := ⟨p.capacity_ - 1, by omega⟩
      have hc := chainF_tabN PoolUnit.next_
        (mapFrom (clearUnitB p.capacity_) 0 p.pool_) p.capacity_
        (fun j hj => by
          obtain ⟨w, hw⟩ := nth_some_of_lt (l := p.pool_) (i := j) (by omega)
          refine ⟨clearUnitB p.capacity_ j w, ?_, clearUnitB_next p.capacity_ j w hj⟩
          rw [nth_clearedB, hw]; rfl)
        m 0 (by omega)
      rw [← hm] at hc
      exact hc
    · intro i u hu
      rw [nth_clearedB] at hu
      obtain ⟨w, hw, rfl⟩ := Option.map_eq_some'.mp hu
      exact clearUnitB_active _ _ _ (hp2 ▸ nth_lt_length hw)
    · intro i
      rw [nth_clearedB]
      cases hw : nth p.pool_ i with
      | none => rfl
      | some w => simp [clearUnitB_object]
  · refine ⟨_, clearI_some q hq1 (by omega), rfl, rfl, by simp, rfl, ?_, ?_, ?_⟩
    · show chainF IndexedPoolUnit.next_ (mapFrom (clearUnitI q.capacity_) 0 q.pool_)
        (some 0) (tabN 0 q.capacity_) = true
      obtain ⟨m, hm⟩ : ∃ m, q.capacity_ = m + 1 := ⟨q.capacity_ - 1, by omega⟩
      have hc := chainF_tabN IndexedPoolUnit.next_
        (mapFrom (clearUnitI q.capacity_) 0 q.pool_) q.capacity_
        (fun j hj => by
          obtain ⟨w, hw⟩ := nth_some_of_lt (l := q.pool_) (i := j) (by omega)
          refine ⟨clearUnitI q.capacity_ j w, ?_, clearUnitI_next q.capacity_ j w hj⟩
          rw [nth_clearedI, hw]; rfl)
        m 0 (by omega)
      rw [← hm] at hc
      exact hc
    · intro i u hu
      rw [nth_clearedI] at hu
      obtain ⟨w, hw, rfl⟩ := Option.map_eq_some'.mp hu
      exact clearUnitI_active _ _ _ (hq2 ▸ nth_lt_length hw)
    · intro i
      rw [nth_clearedI]
      cases hw : nth q.pool_ i with
      | none => rfl
      | some w => simp [clearUnitI_object]

/-- C9 witness: the theorem applied to the one-slot pools with the slot
active. -/
theorem c9_clear_resets_witness :
    (∃ p', ObjectPool.clear poolB1Act = some p' ∧
      ObjectPool.activeCount p' = 0 ∧
      ObjectPool.capacity p' = ObjectPool.capacity poolB1Act ∧
      p'.pool_.length = poolB1Act.pool_.length ∧
      p'.first_available_ = some 0 ∧
      chainF PoolUnit.next_ p'.pool_ p'.first_available_
        (tabN 0 poolB1Act.capacity_) = true ∧
      (∀ i u, nth p'.pool_ i = some u → u.active_ = false) ∧
      (∀ i, (nth p'.pool_ i).map PoolUnit.object_ =
        (nth poolB1Act.pool_ i).map PoolUnit.object_)) ∧
    (∃ q', IndexedObjectPool.clear poolI1 = some q' ∧
      IndexedObjectPool.activeCount q' = 0 ∧
      IndexedObjectPool.capacity q' = IndexedObjectPool.capacity poolI1 ∧
      q'.pool_.length = poolI1.pool_.length ∧
      q'.first_available_ = some 0 ∧
      chainF IndexedPoolUnit.next_ q'.pool_ q'.first_available_
        (tabN 0 poolI1.capacity_) = true ∧
      (∀ i u, nth q'.pool_ i = some u → u.active_ = false) ∧
      (∀ i, (nth q'.pool_ i).map IndexedPoolUnit.object_ =
        (nth poolI1.pool_ i).map IndexedPoolUnit.object_)) :=
  c9_clear_resets poolB1Act poolI1 (by decide) rfl (by decide) rfl

/-- C10 witness: the unconditional-deactivate clause applied to the fresh
capacity-1 pool, whose slot 0 is already inactive. -/
theorem c10_deactivate_no_activity_check_witness :
    ObjectPool.deactivate poolB1 0 = some
      { poolB1 with
          pool_ := setN poolB1.pool_ 0
            ({ defUnit with active_ := false, next_ := poolB1.first_available_ })
          first_available_ := some 0
          active_count_ := sub1 poolB1.active_count_ } :=
  c10_deactivate_no_activity_check.1 poolB1 0 defUnit (by decide) rfl

/-- The slot at position `i` of a fresh basic pool of capacity `n` after its
first `k` slots have been activated in order. -/
def unitK (n k i : Nat) : PoolUnit :=
  { active_ := decide (i < k)
    next_ := if i + 1 = n then none else some (i + 1)
    object_ := 0 }

/-- A fresh basic pool of capacity `n` after `k` successful `activate()`
calls: slots `0..k-1` active, head at slot `k` (null once `k = n`). -/
def stateKB (n k : Nat) : ObjectPool :=
  { first_available_ := if k < n then some k else none
    pool_ := tabFrom (unitK n k) 0 n
    active_count_ := k
    capacity_ := n }

/-- `activate()` iterated: `activatesB p k` collects the indices handed out
by `k` consecutive successful calls (`none` if any call fails to hand out a
slot or is undefined). -/
def activatesB : ObjectPool → Nat → Option (List Nat × ObjectPool)
  | p, 0 => some ([], p)
  | p, k + 1 =>
    match ObjectPool.activate p with
    | some (some i, p') =>
      match activatesB p' k with
      | some (l, q) => some (i :: l, q)
      | _ => none
    | _ => none

theorem activateB_some {p : ObjectPool} {i : Nat} {u : PoolUnit}
    (hf : p.first_available_ = some i) (hu : nth p.pool_ i = some u) :
    ObjectPool.activate p = some (some i,
      { p with pool_ := setN p.pool_ i { u with active_ := true }
               first_available_ := u.next_
               active_count_ := add1 p.active_count_ }) := by
  simp only [ObjectPool.activate, hf, hu]

theorem clearUnitB_defUnit (n j : Nat) (hj : j < n) :
    clearUnitB n j defUnit = unitK n 0 j := by
  rw [clearUnitB, if_pos hj, unitK]
  simp [defUnit]

theorem construct_stateKB (n : Nat) (h : 0 < n) :
    ObjectPool.construct n = some (stateKB n 0) := by
  have hpool : mapFrom (clearUnitB n) 0 (List.replicate n defUnit) =
      tabFrom (unitK n 0) 0 n :=
    mapFrom_replicate_eq_tabFrom _ _ _ n 0
      (fun j h1 h2 => clearUnitB_defUnit n j (by omega))
  rw [constructB_eq n h, stateKB, if_pos h, hpool]

theorem activate_stateKB (n k : Nat) (hk : k < n) (hW : n < W) :
    ObjectPool.activate (stateKB n k) = some (some k, stateKB n (k + 1)) := by
  have hf : (stateKB n k).first_available_ = some k := by
    show (if k < n then some k else none) = some k
    rw [if_pos hk]
  have hu : nth (stateKB n k).pool_ k = some (unitK n k k) := by
    show nth (tabFrom (unitK n k) 0 n) k = _
    rw [nth_tabFrom, if_pos hk]
    norm_num
  rw [activateB_some hf hu]
  have hpool : setN (stateKB n k).pool_ k ({ unitK n k k with active_ := true }) =
      tabFrom (unitK n (k + 1)) 0 n := by
    refine nth_ext fun j => ?_
    rw [nth_setN]
    by_cases hj : j = k
    · rw [if_pos hj, hj]
      show (nth (tabFrom (unitK n k) 0 n) k).map _ = nth (tabFrom (unitK n (k + 1)) 0 n) k
      rw [nth_tabFrom, if_pos hk, nth_tabFrom, if_pos hk]
      simp [unitK]
    · rw [if_neg hj]
      show nth (tabFrom (unitK n k) 0 n) j = nth (tabFrom (unitK n (k + 1)) 0 n) j
      rw [nth_tabFrom, nth_tabFrom]
      by_cases hjn : j < n
      · rw [if_pos hjn, if_pos hjn]
        have : (0 + j < k) = (0 + j < k + 1) := by
          refine propext ⟨fun hh => by omega, fun hh => by omega⟩
        simp only [unitK, this]
      · rw [if_neg hjn, if_neg hjn]
  have hfirst : (unitK n k k).next_ = (stateKB n (k + 1)).first_available_ := by
    show (if k + 1 = n then none else some (k + 1)) =
      (if k + 1 < n then some (k + 1) else none)
    by_cases hkn : k + 1 = n
    · rw [if_pos hkn, if_neg (by omega)]
    · rw [if_neg hkn, if_pos (by omega)]
  have hcount : add1 (stateKB n k).active_count_ = k + 1 := by
    show add1 k = k + 1
    exact add1_eq (by omega)
  rw [show (stateKB n k).pool_ = tabFrom (unitK n k) 0 n from rfl] at hpool
  simp only [stateKB] at hpool hfirst hcount ⊢
  rw [hpool, hfirst, hcount]

theorem length_tabN (n : Nat) : ∀ i : Nat, (tabN i n).length = n := by
  induction n with
  | zero => intro i; rfl
  | succ n ih => intro i; simp [tabN, List.length_cons, ih (i + 1)]

theorem activatesB_stateKB (n : Nat) (hW : n < W) : ∀ (m j : Nat), j + m ≤ n →
    activatesB (stateKB n j) m = some (tabN j m, stateKB n (j + m)) := by
  intro m
  induction m with
  | zero => intro j hj; rfl
  | succ m ih =>
    intro j hj
    have ha := activate_stateKB n j (by omega) hW
    have hrec := ih (j + 1) (by omega)
    simp only [activatesB, ha, hrec]
    have h1 : j + 1 + m = j + (m + 1) := by omega
    rw [h1]
    rfl

/-- C6.  Basic pool `activate()`: it hands out the head of the free list
exactly when that head is non-null (marking the slot active, advancing the
head and bumping the counter), and returns null exactly when the free list
is empty — returning null never changes the pool.  Consequently a fresh pool
of capacity `n` (`0 < n < 2 ^ 64`) serves exactly `n` consecutive successful
`activate()` calls handing out the distinct slots `0, 1, ..., n - 1`, and
the `(n+1)`-th call returns null. -/
theorem c6_basic_activate :
    (∀ p : ObjectPool,
      ObjectPool.activate p = some (none, p) ↔ p.first_available_ = none) ∧
    (∀ (p : ObjectPool) (i : Nat) (u : PoolUnit), p.first_available_ = some i →
      nth p.pool_ i = some u →
      ObjectPool.activate p = some (some i,
        { p with pool_ := setN p.pool_ i { u with active_ := true }
                 first_available_ := u.next_
                 active_count_ := add1 p.active_count_ })) ∧
    (∀ n : Nat, 0 < n → n < W →
      ObjectPool.construct n = some (stateKB n 0) ∧
      ObjectPool.activeCount (stateKB n 0) = 0 ∧
      ObjectPool.capacity (stateKB n 0) = n ∧
      activatesB (stateKB n 0) n = some (tabN 0 n, stateKB n n) ∧
      (tabN 0 n).Nodup ∧ (tabN 0 n).length = n ∧
      ObjectPool.activate (stateKB n n) = some (none, stateKB n n)) := by
  refine ⟨fun p => ⟨fun h => ?_, fun h => by simp [ObjectPool.activate, h]⟩,
    fun p i u hf hu => activateB_some hf hu,
    fun n h0 hW => ⟨construct_stateKB n h0, rfl, rfl, ?_, nodup_tabN n 0, ?_, ?_⟩⟩
  · cases hf : p.first_available_ with
    | none => rfl
    | some i =>
      simp only [ObjectPool.activate, hf] at h
      cases hn : nth p.pool_ i with
      | none => simp [hn] at h
      | some u => simp [hn] at h
  · have := activatesB_stateKB n hW n 0 (by omega)
    simpa using this
  · exact length_tabN n 0
  · have hf : (stateKB n n).first_available_ = none := by
      show (if n < n then some n else none) = none
      rw [if_neg (by omega)]
    simp [ObjectPool.activate, hf]

theorem chainF_none {α : Type} (nf : α → Option Nat) (pool : List α)
    (l : List Nat) : chainF nf pool none l = true ↔ l = [] := by
  cases l <;> simp [chainF]

theorem chainF_some_cons {α : Type} (nf : α → Option Nat) (pool : List α)
    (a j : Nat) (r : List Nat) :
    chainF nf pool (some a) (j :: r) = true ↔
      a = j ∧ ∃ u, nth pool a = some u ∧ chainF nf pool (nf u) r = true := by
  cases hn : nth pool a with
  | none => simp [chainF, hn]
  | some u => simp [chainF, hn]

theorem chainF_some_nil {α : Type} (nf : α → Option Nat) (pool : List α)
    (a : Nat) : chainF nf pool (some a) [] = false := rfl

theorem chainF_setN_not_mem {α : Type} (nf : α → Option Nat) {pool : List α}
    {i : Nat} (v : α) {h : Option Nat} {l : List Nat} (hi : i ∉ l)
    (hc : chainF nf pool h l = true) : chainF nf (setN pool i v) h l = true := by
  induction l generalizing h with
  | nil =>
    cases h with
    | none => rfl
    | some a => rw [chainF_some_nil] at hc; exact absurd hc (by simp)
  | cons j r ih =>
    cases h with
    | none => rw [chainF_none] at hc; exact absurd hc (by simp)
    | some a =>
      obtain ⟨rfl, u, hu, hr⟩ := (chainF_some_cons nf pool a j r).mp hc
      have hne : a ≠ i := fun hh => hi (hh ▸ List.mem_cons_self a r)
      refine (chainF_some_cons nf (setN pool i v) a a r).mpr
        ⟨rfl, u, ?_, ih (fun hh => hi (List.mem_cons_of_mem a hh)) hr⟩
      rw [nth_setN_ne pool v hne, hu]

theorem chainF_mem_lt {α : Type} (nf : α → Option Nat) {pool : List α} :
    ∀ {l : List Nat} {h : Option Nat}, chainF nf pool h l = true →
    ∀ x ∈ l, x < pool.length := by
  intro l
  induction l with
  | nil => intro h _ x hx; simp at hx
  | cons j r ih =>
    intro h hc x hx
    cases h with
    | none => rw [chainF_none] at hc; exact absurd hc (by simp)
    | some a =>
      obtain ⟨rfl, u, hu, hr⟩ := (chainF_some_cons nf pool a j r).mp hc
      rcases List.mem_cons.mp hx with rfl | hx'
      · exact nth_lt_length hu
      · exact ih hr x hx'

theorem nodup_lt_length_le {l : List Nat} {N : Nat} (hnd : l.Nodup)
    (hlt : ∀ x ∈ l, x < N) : l.length ≤ N := by
  classical
  have h1 : l.toFinset ⊆ Finset.range N := fun x hx =>
    Finset.mem_range.mpr (hlt x (List.mem_toFinset.mp hx))
  have h2 := Finset.card_le_card h1
  rwa [List.toFinset_card_of_nodup hnd, Finset.card_range] at h2

/-- The free-list invariant of the basic pool: `l` names, in chain order,
the slots of the free list; they are distinct, all inactive, they exhaust
the inactive slots, and together with `active_count_` they account for the
whole capacity. -/
def FreeListB (p : ObjectPool) (l : List Nat) : Prop :=
  chainF PoolUnit.next_ p.pool_ p.first_available_ l = true ∧
  l.Nodup ∧
  (∀ i ∈ l, ∃ u, nth p.pool_ i = some u ∧ u.active_ = false) ∧
  (∀ i u, nth p.pool_ i = some u → u.active_ = false → i ∈ l) ∧
  p.active_count_ + l.length = p.capacity_

/-- Well-formedness of a reachable basic pool. -/
def InvB (p : ObjectPool) : Prop :=
  p.pool_.length = p.capacity_ ∧ 0 < p.capacity_ ∧ p.capacity_ < W ∧
  ∃ l, FreeListB p l

theorem FreeListB_cleared (p : ObjectPool) (h1 : 0 < p.capacity_)
    (h2 : p.pool_.length = p.capacity_) :
    FreeListB
      { first_available_ := some 0
        pool_ := mapFrom (clearUnitB p.capacity_) 0 p.pool_
        active_count_ := 0
        capacity_ := p.capacity_ } (tabN 0 p.capacity_) := by
  refine ⟨?_, nodup_tabN _ 0, ?_, ?_, ?_⟩
  · show chainF PoolUnit.next_ (mapFrom (clearUnitB p.capacity_) 0 p.pool_)
      (some 0) (tabN 0 p.capacity_) = true
    obtain ⟨m, hm⟩ : ∃ m, p.capacity_ = m + 1 := ⟨p.capacity_ - 1, by omega⟩
    have hc := chainF_tabN PoolUnit.next_
      (mapFrom (clearUnitB p.capacity_) 0 p.pool_) p.capacity_
      (fun j hj => by
        obtain ⟨w, hw⟩ := nth_some_of_lt (l := p.pool_) (i := j) (by omega)
        refine ⟨clearUnitB p.capacity_ j w, ?_, clearUnitB_next p.capacity_ j w hj⟩
        rw [nth_clearedB, hw]; rfl)
      m 0 (by omega)
    rw [← hm] at hc
    exact hc
  · intro i hi
    have hilt : i < p.capacity_ := by
      have := mem_tabN.mp hi; omega
    obtain ⟨w, hw⟩ := nth_some_of_lt (l := p.pool_) (i := i) (by omega)
    refine ⟨clearUnitB p.capacity_ i w, ?_, clearUnitB_active _ _ _ hilt⟩
    show nth (mapFrom (clearUnitB p.capacity_) 0 p.pool_) i = _
    rw [nth_clearedB, hw]; rfl
  · intro i u hu _
    have : i < p.pool_.length := by
      have := nth_lt_length hu
      simpa using this
    exact mem_tabN.mpr (by omega)
  · show 0 + (tabN 0 p.capacity_).length = p.capacity_
    rw [length_tabN, Nat.zero_add]

theorem InvB_clear {p : ObjectPool} (hI : InvB p) :
    ∃ p', ObjectPool.clear p = some p' ∧ InvB p' := by
  obtain ⟨hlen, hpos, hWc, _⟩ := hI
  refine ⟨_, clearB_some p hpos (by omega), by simpa using hlen, hpos, hWc,
    tabN 0 p.capacity_, FreeListB_cleared p hpos hlen⟩

theorem InvB_stepB {p : ObjectPool} {op : Op} (hI : InvB p)
    (hok : okB p op = true) :
    ∃ p', stepB p op = some p' ∧ InvB p' := by
  obtain ⟨hlen, hpos, hWc, l, hch, hnd, hact, hcomp, hcnt⟩ := hI
  cases op with
  | clear => exact InvB_clear ⟨hlen, hpos, hWc, l, hch, hnd, hact, hcomp, hcnt⟩
  | activate =>
    cases hf : p.first_available_ with
    | none =>
      refine ⟨p, ?_, hlen, hpos, hWc, l, hch, hnd, hact, hcomp, hcnt⟩
      simp [stepB, ObjectPool.activate, hf]
    | some i =>
      rw [hf] at hch
      cases l with
      | nil => rw [chainF_some_nil] at hch; exact absurd hch (by simp)
      | cons j r =>
        obtain ⟨rfl, u, hu, hr⟩ := (chainF_some_cons _ _ _ _ _).mp hch
        have hinr : i ∉ r := (List.nodup_cons.mp hnd).1
        refine ⟨{ p with
            pool_ := setN p.pool_ i ({ u with active_ := true }),
            first_available_ := u.next_,
            active_count_ := add1 p.active_count_ },
          ?_, by simpa using hlen, hpos, hWc, r,
          ?_, (List.nodup_cons.mp hnd).2, ?_, ?_, ?_⟩
        · rw [stepB, activateB_some hf hu]
          rfl
        · show chainF PoolUnit.next_ (setN p.pool_ i { u with active_ := true })
            u.next_ r = true
          exact chainF_setN_not_mem _ _ hinr hr
        · intro x hx
          obtain ⟨w, hw, hwa⟩ := hact x (List.mem_cons_of_mem i hx)
          have hxi : x ≠ i := fun hh => hinr (hh ▸ hx)
          refine ⟨w, ?_, hwa⟩
          show nth (setN p.pool_ i { u with active_ := true }) x = some w
          rw [nth_setN_ne _ _ hxi, hw]
        · intro x w hw hwa
          replace hw : nth (setN p.pool_ i { u with active_ := true }) x = some w := hw
          by_cases hxi : x = i
          · subst hxi
            rw [nth_setN_self _ hu] at hw
            cases hw
            simp at hwa
          · show x ∈ r
            rw [nth_setN_ne _ _ hxi] at hw
            have := hcomp x w hw hwa
            rcases List.mem_cons.mp this with rfl | hh
            · exact absurd rfl hxi
            · exact hh
        · show add1 p.active_count_ + r.length = p.capacity_
          rw [List.length_cons] at hcnt
          rw [add1_eq (by omega)]
          omega
  | deactivate i =>
    have hui : ∃ u, nth p.pool_ i = some u ∧ u.active_ = true := by
      simp only [okB] at hok
      cases hn : nth p.pool_ i with
      | none =>
        simp only [activeFlagB, hn] at hok
        exact absurd hok (by simp)
      | some u => simp only [activeFlagB, hn] at hok; exact ⟨u, rfl, hok⟩
    obtain ⟨u, hu, hua⟩ := hui
    have hic : i < p.capacity_ := hlen ▸ nth_lt_length hu
    have hinl : i ∉ l := by
      intro hmem
      obtain ⟨w, hw, hwa⟩ := hact i hmem
      rw [hu] at hw
      cases hw
      rw [hua] at hwa
      exact absurd hwa (by simp)
    have hlt : ∀ x ∈ i :: l, x < p.capacity_ := by
      intro x hx
      rcases List.mem_cons.mp hx with rfl | hx'
      · exact hic
      · exact hlen ▸ chainF_mem_lt PoolUnit.next_ hch x hx'
    have hcard : (i :: l).length ≤ p.capacity_ :=
      nodup_lt_length_le (List.nodup_cons.mpr ⟨hinl, hnd⟩) hlt
    have hcpos : 1 ≤ p.active_count_ := by
      rw [List.length_cons] at hcard
      omega
    refine ⟨{ p with
        pool_ := setN p.pool_ i ({ u with active_ := false, next_ := p.first_available_ }),
        first_available_ := some i,
        active_count_ := sub1 p.active_count_ },
      ?_, by simpa using hlen, hpos, hWc, i :: l,
      ?_, List.nodup_cons.mpr ⟨hinl, hnd⟩, ?_, ?_, ?_⟩
    · rw [stepB, ObjectPool.deactivate, if_pos hic, hu]
    · show chainF PoolUnit.next_
        (setN p.pool_ i { u with active_ := false, next_ := p.first_available_ })
        (some i) (i :: l) = true
      refine (chainF_some_cons _ _ _ _ _).mpr ⟨rfl, _, nth_setN_self _ hu, ?_⟩
      show chainF PoolUnit.next_ _ p.first_available_ l = true
      exact chainF_setN_not_mem _ _ hinl hch
    · intro x hx
      rcases List.mem_cons.mp hx with rfl | hx'
      · exact ⟨_, nth_setN_self _ hu, rfl⟩
      · obtain ⟨w, hw, hwa⟩ := hact x hx'
        have hxi : x ≠ i := fun hh => hinl (hh ▸ hx')
        refine ⟨w, ?_, hwa⟩
        show nth (setN p.pool_ i
          { u with active_ := false, next_ := p.first_available_ }) x = some w
        rw [nth_setN_ne _ _ hxi, hw]
    · intro x w hw hwa
      by_cases hxi : x = i
      · exact hxi ▸ List.mem_cons_self i l
      · show x ∈ i :: l
        replace hw : nth (setN p.pool_ i
          { u with active_ := false, next_ := p.first_available_ }) x = some w := hw
        rw [nth_setN_ne _ _ hxi] at hw
        exact List.mem_cons_of_mem i (hcomp x w hw hwa)
    · show sub1 p.active_count_ + (i :: l).length = p.capacity_
      rw [sub1_eq hcpos (by omega), List.length_cons]
      omega

theorem InvB_runB {p : ObjectPool} {ops : List Op} (hI : InvB p)
    (hd : disciplinedB p ops = true) :
    ∃ q, runB p ops = some q ∧ InvB q := by
  induction ops generalizing p with
  | nil => exact ⟨p, rfl, hI⟩
  | cons op rest ih =>
    rw [disciplinedB, Bool.and_eq_true] at hd
    obtain ⟨p', hstep, hI'⟩ := InvB_stepB hI hd.1
    have hd2 := hd.2
    rw [hstep] at hd2
    obtain ⟨q, hrun, hIq⟩ := ih hI' hd2
    refine ⟨q, ?_, hIq⟩
    rw [runB, hstep]
    exact hrun

/-- C7.  Basic pool free-list cardinality invariant: starting from a fresh
pool of capacity `n` (`0 < n < 2 ^ 64`), after any sequence of
`activate`/`deactivate`/`clear` calls in which `deactivate` is only applied
to indices of currently active slots, the run is defined and the free list
is a chain of distinct, inactive slots with
`activeCount() + |free list| = capacity()`, i.e.
`activeCount() = capacity() - |free list|`. -/
theorem c7_free_list_cardinality (n : Nat) (ops : List Op)
    (h0 : 0 < n) (hW : n < W)
    (hd : disciplinedFromConstructB n ops = true) :
    ∃ q l, runFromConstructB n ops = some q ∧
      chainF PoolUnit.next_ q.pool_ q.first_available_ l = true ∧
      l.Nodup ∧
      (∀ i ∈ l, ∃ u, nth q.pool_ i = some u ∧ u.active_ = false) ∧
      (∀ i u, nth q.pool_ i = some u → u.active_ = false → i ∈ l) ∧
      ObjectPool.activeCount q + l.length = ObjectPool.capacity q ∧
      ObjectPool.activeCount q = ObjectPool.capacity q - l.length := by
  have hfl := FreeListB_cleared
    { first_available_ := none
      pool_ := List.replicate n defUnit
      active_count_ := 0
      capacity_ := n } h0 (by simp)
  have hI0 : InvB
      { first_available_ := some 0
        pool_ := mapFrom (clearUnitB n) 0 (List.replicate n defUnit)
        active_count_ := 0
        capacity_ := n } :=
    ⟨by simp, h0, hW, tabN 0 n, hfl⟩
  simp only [disciplinedFromConstructB, constructB_eq n h0] at hd
  obtain ⟨q, hrun, hlen, hpos, hWc, l, hch, hnd, hact, hcomp, hcnt⟩ :=
    InvB_runB hI0 hd
  refine ⟨q, l, ?_, hch, hnd, hact, hcomp, hcnt, ?_⟩
  · simp only [runFromConstructB, constructB_eq n h0]
    exact hrun
  · show q.active_count_ = q.capacity_ - l.length
    omega

/-- C7 witness: the theorem applied to a concrete disciplined run. -/
theorem c7_free_list_cardinality_witness :
    ∃ q l, runFromConstructB 2 [Op.activate, Op.deactivate 0] = some q ∧
      chainF PoolUnit.next_ q.pool_ q.first_available_ l = true ∧
      l.Nodup ∧
      (∀ i ∈ l, ∃ u, nth q.pool_ i = some u ∧ u.active_ = false) ∧
      (∀ i u, nth q.pool_ i = some u → u.active_ = false → i ∈ l) ∧
      ObjectPool.activeCount q + l.length = ObjectPool.capacity q ∧
      ObjectPool.activeCount q = ObjectPool.capacity q - l.length :=
  c7_free_list_cardinality 2 [Op.activate, Op.deactivate 0]
    (by decide) (by decide) (by decide)

/-- Every slot of the indexed pool carries its own position in `index_`
(established by `clear()`, never modified afterwards). -/
def IdxOk (p : IndexedObjectPool) : Prop :=
  ∀ i u, nth p.pool_ i = some u → u.index_ = i

/-- The `highest_active_index_` invariant: it bounds every active slot's
index from above, and it is 0 or itself the index of an active slot. -/
def HighOk (p : IndexedObjectPool) : Prop :=
  (∀ i u, nth p.pool_ i = some u → u.active_ = true →
    i ≤ p.highest_active_index_) ∧
  (p.highest_active_index_ = 0 ∨
    ∃ u, nth p.pool_ p.highest_active_index_ = some u ∧ u.active_ = true)

/-- Well-formedness of a reachable indexed pool. -/
def InvI (p : IndexedObjectPool) : Prop :=
  p.pool_.length = p.capacity_ ∧ 0 < p.capacity_ ∧ IdxOk p ∧ HighOk p

theorem scanDown_found {pl : List IndexedPoolUnit} :
    ∀ {k i : Nat}, scanDown pl k = some (some i) →
    i ≤ k ∧ (∃ w, nth pl i = some w ∧ w.active_ = true) ∧
    ∀ j, i < j → j ≤ k → ∀ w, nth pl j = some w → w.active_ = false := by
  intro k
  induction k with
  | zero =>
    intro i h
    rw [scanDown] at h
    cases hn : nth pl 0 with
    | none => simp only [hn] at h; exact Option.noConfusion h
    | some w =>
      simp only [hn] at h
      by_cases hw : w.active_ = true
      · rw [if_pos hw, Option.some_inj, Option.some_inj] at h
        subst h
        exact ⟨Nat.le_refl 0, ⟨w, hn, hw⟩, fun j hj1 hj2 => by omega⟩
      · rw [if_neg hw, Option.some_inj] at h
        exact Option.noConfusion h
  | succ k ih =>
    intro i h
    rw [scanDown] at h
    cases hn : nth pl (k + 1) with
    | none => simp only [hn] at h; exact Option.noConfusion h
    | some w =>
      simp only [hn] at h
      by_cases hw : w.active_ = true
      · rw [if_pos hw, Option.some_inj, Option.some_inj] at h
        subst h
        exact ⟨Nat.le_refl _, ⟨w, hn, hw⟩, fun j hj1 hj2 => by omega⟩
      · rw [if_neg hw] at h
        obtain ⟨h1, h2, h3⟩ := ih h
        refine ⟨by omega, h2, fun j hj1 hj2 w' hw' => ?_⟩
        by_cases hjk : j = k + 1
        · subst hjk
          rw [hn] at hw'
          cases hw'
          exact eq_false_of_ne_true hw
        · exact h3 j hj1 (by omega) w' hw'

theorem scanDown_not_found {pl : List IndexedPoolUnit} :
    ∀ {k : Nat}, scanDown pl k = some none →
    ∀ j, j ≤ k → ∀ w, nth pl j = some w → w.active_ = false := by
  intro k
  induction k with
  | zero =>
    intro h j hj w hw
    rw [scanDown] at h
    cases hn : nth pl 0 with
    | none => simp only [hn] at h; exact Option.noConfusion h
    | some w' =>
      simp only [hn] at h
      by_cases hw' : w'.active_ = true
      · rw [if_pos hw', Option.some_inj] at h
        exact Option.noConfusion h
      · have hj0 : j = 0 := by omega
        subst hj0
        rw [hn] at hw
        cases hw
        exact eq_false_of_ne_true hw'
  | succ k ih =>
    intro h j hj w hw
    rw [scanDown] at h
    cases hn : nth pl (k + 1) with
    | none => simp only [hn] at h; exact Option.noConfusion h
    | some w' =>
      simp only [hn] at h
      by_cases hw' : w'.active_ = true
      · rw [if_pos hw', Option.some_inj] at h
        exact Option.noConfusion h
      · rw [if_neg hw'] at h
        by_cases hjk : j = k + 1
        · subst hjk
          rw [hn] at hw
          cases hw
          exact eq_false_of_ne_true hw'
        · exact ih h j (by omega) w hw

theorem relinkI_spec {p : IndexedObjectPool} {index : Nat} {u : IndexedPoolUnit}
    {pf : List IndexedPoolUnit × Option Nat}
    (hu : nth p.pool_ index = some u)
    (h : relinkI p index u = some pf) :
    pf.1.length = p.pool_.length ∧
    (∀ j w, nth pf.1 j = some w → ∃ w0, nth p.pool_ j = some w0 ∧
      w.active_ = (if j = index then false else w0.active_) ∧
      w.index_ = w0.index_) := by
  rw [relinkI] at h
  by_cases hA : addrVal p.first_available_ < addrVal u.next_
  · rw [if_pos hA] at h
    cases hf : p.first_available_ with
    | none => simp only [hf] at h; exact Option.noConfusion h
    | some f =>
      simp only [hf] at h
      cases hfu : nth (setN p.pool_ index ({ u with active_ := false })) f with
      | none => simp only [hfu] at h; exact Option.noConfusion h
      | some fu =>
        simp only [hfu] at h
        cases hu2 : nth (setN (setN p.pool_ index ({ u with active_ := false })) f
            ({ fu with next_ := some index })) index with
        | none => simp only [hu2] at h; exact Option.noConfusion h
        | some u2 =>
          simp only [hu2, Option.some_inj] at h
          subst h
          have hfu0 : ∃ fu0, nth p.pool_ f = some fu0 ∧
              fu.active_ = (if f = index then false else fu0.active_) ∧
              fu.index_ = fu0.index_ := by
            by_cases hfi : f = index
            · subst hfi
              rw [nth_setN_self _ hu] at hfu
              cases hfu
              exact ⟨u, hu, by simp, rfl⟩
            · rw [nth_setN_ne _ _ hfi] at hfu
              exact ⟨fu, hfu, by rw [if_neg hfi], rfl⟩
          have hu2v : u2.active_ = false ∧ u2.index_ = u.index_ := by
            by_cases hfi : f = index
            · subst hfi
              have hx : nth (setN p.pool_ f ({ u with active_ := false })) f =
                  some ({ u with active_ := false }) := nth_setN_self _ hu
              rw [hx] at hfu
              cases hfu
              rw [nth_setN_self _ hx] at hu2
              cases hu2
              exact ⟨rfl, rfl⟩
            · have hx : nth (setN p.pool_ index ({ u with active_ := false })) index =
                  some ({ u with active_ := false }) := nth_setN_self _ hu
              rw [nth_setN_ne _ _ (fun hh => hfi hh.symm), hx] at hu2
              cases hu2
              exact ⟨rfl, rfl⟩
          constructor
          · simp
          · intro j w hw
            by_cases hji : j = index
            · subst hji
              have : nth (setN (setN (setN p.pool_ j ({ u with active_ := false })) f
                  ({ fu with next_ := some j })) j
                  ({ u2 with next_ := fu.next_ })) j =
                  some ({ u2 with next_ := fu.next_ }) := nth_setN_self _ hu2
              rw [this] at hw
              cases hw
              exact ⟨u, hu, by simpa using hu2v.1, hu2v.2⟩
            · rw [nth_setN_ne _ _ hji] at hw
              by_cases hjf : j = f
              · subst hjf
                rw [nth_setN_self _ hfu] at hw
                cases hw
                obtain ⟨fu0, hfu0n, hfua, hfui⟩ := hfu0
                refine ⟨fu0, hfu0n, ?_, hfui⟩
                rw [if_neg hji]
                rw [if_neg hji] at hfua
                exact hfua
              · rw [nth_setN_ne _ _ hjf, nth_setN_ne _ _ hji] at hw
                exact ⟨w, hw, by rw [if_neg hji], rfl⟩
  · rw [if_neg hA, Option.some_inj] at h
    subst h
    constructor
    · simp
    · intro j w hw
      by_cases hji : j = index
      · subst hji
        rw [nth_setN_self _ hu] at hw
        cases hw
        exact ⟨u, hu, by simp, rfl⟩
      · rw [nth_setN_ne _ _ hji] at hw
        exact ⟨w, hw, by rw [if_neg hji], rfl⟩

theorem InvI_cleared (p : IndexedObjectPool) (h1 : 0 < p.capacity_)
    (h2 : p.pool_.length = p.capacity_) :
    InvI { first_available_ := some 0
           pool_ := mapFrom (clearUnitI p.capacity_) 0 p.pool_
           active_count_ := 0
           capacity_ := p.capacity_
           highest_active_index_ := 0 } := by
  refine ⟨by simpa using h2, h1, ?_, ?_, Or.inl rfl⟩
  · intro i u hu
    replace hu : nth (mapFrom (clearUnitI p.capacity_) 0 p.pool_) i = some u := hu
    rw [nth_clearedI] at hu
    obtain ⟨w, hw, rfl⟩ := Option.map_eq_some'.mp hu
    exact clearUnitI_index _ _ _ (h2 ▸ nth_lt_length hw)
  · intro i u hu hua
    replace hu : nth (mapFrom (clearUnitI p.capacity_) 0 p.pool_) i = some u := hu
    rw [nth_clearedI] at hu
    obtain ⟨w, hw, rfl⟩ := Option.map_eq_some'.mp hu
    rw [clearUnitI_active _ _ _ (h2 ▸ nth_lt_length hw)] at hua
    exact absurd hua (by simp)

theorem InvI_stepI {p p' : IndexedObjectPool} {op : Op}
    (hI : InvI p) (hstep : stepI p op = some p') : InvI p' := by
  obtain ⟨hlen, hpos, hidx, hup, hright⟩ := hI
  cases op with
  | clear =>
    simp only [stepI] at hstep
    rw [clearI_some p hpos (by omega), Option.some_inj] at hstep
    subst hstep
    exact InvI_cleared p hpos hlen
  | activate =>
    simp only [stepI] at hstep
    cases hf : p.first_available_ with
    | none =>
      simp only [IndexedObjectPool.activate, hf, Option.map_some'] at hstep
      rw [Option.some_inj] at hstep
      subst hstep
      exact ⟨hlen, hpos, hidx, hup, hright⟩
    | some i =>
      cases hn : nth p.pool_ i with
      | none =>
        simp only [IndexedObjectPool.activate, hf, hn, Option.map_none'] at hstep
        exact Option.noConfusion hstep
      | some u =>
        simp only [IndexedObjectPool.activate, hf, hn, Option.map_some'] at hstep
        rw [Option.some_inj] at hstep
        rw [← hstep]
        have hui : u.index_ = i := hidx i u hn
        refine ⟨by simpa using hlen, hpos, ?_, ?_, ?_⟩
        · intro j w hw
          replace hw : nth (setN p.pool_ i ({ u with active_ := true })) j = some w := hw
          by_cases hji : j = i
          · subst hji
            rw [nth_setN_self _ hn] at hw
            cases hw
            exact hui
          · rw [nth_setN_ne _ _ hji] at hw
            exact hidx j w hw
        · intro j w hw hwa
          replace hw : nth (setN p.pool_ i ({ u with active_ := true })) j = some w := hw
          show j ≤ if u.index_ > p.highest_active_index_ then u.index_
            else p.highest_active_index_
          by_cases hji : j = i
          · subst hji
            by_cases hgt : u.index_ > p.highest_active_index_
            · rw [if_pos hgt]
              omega
            · rw [if_neg hgt]
              omega
          · rw [nth_setN_ne _ _ hji] at hw
            have := hup j w hw hwa
            by_cases hgt : u.index_ > p.highest_active_index_
            · rw [if_pos hgt]; omega
            · rw [if_neg hgt]; omega
        · show (if u.index_ > p.highest_active_index_ then u.index_
            else p.highest_active_index_) = 0 ∨ _
          by_cases hgt : u.index_ > p.highest_active_index_
          · refine Or.inr ⟨{ u with active_ := true }, ?_, rfl⟩
            show nth (setN p.pool_ i ({ u with active_ := true }))
              (if u.index_ > p.highest_active_index_ then u.index_
               else p.highest_active_index_) = _
            rw [if_pos hgt, hui]
            exact nth_setN_self _ hn
          · rw [if_neg hgt]
            rcases hright with h0 | ⟨w, hwn, hwa⟩
            · exact Or.inl h0
            · by_cases hhi : p.highest_active_index_ = i
              · refine Or.inr ⟨{ u with active_ := true }, ?_, rfl⟩
                show nth (setN p.pool_ i ({ u with active_ := true }))
                  p.highest_active_index_ = _
                rw [hhi]
                exact nth_setN_self _ hn
              · refine Or.inr ⟨w, ?_, hwa⟩
                show nth (setN p.pool_ i ({ u with active_ := true }))
                  p.highest_active_index_ = some w
                rw [nth_setN_ne _ _ hhi]
                exact hwn
  | deactivate index =>
    simp only [stepI] at hstep
    rw [IndexedObjectPool.deactivate] at hstep
    by_cases hic : index < p.capacity_
    · rw [if_pos hic] at hstep
      cases hn : nth p.pool_ index with
      | none => simp only [hn] at hstep; exact Option.noConfusion hstep
      | some u =>
        simp only [hn] at hstep
        cases hre : relinkI p index u with
        | none => simp only [hre] at hstep; exact Option.noConfusion hstep
        | some pf =>
          simp only [hre] at hstep
          obtain ⟨pl, fa⟩ := pf
          obtain ⟨hplen, hspec⟩ := relinkI_spec hn hre
          replace hplen : pl.length = p.pool_.length := hplen
          replace hspec : ∀ j w, nth pl j = some w → ∃ w0,
              nth p.pool_ j = some w0 ∧
              w.active_ = (if j = index then false else w0.active_) ∧
              w.index_ = w0.index_ := hspec
          have hidx' : ∀ j w, nth pl j = some w → w.index_ = j := by
            intro j w hw
            obtain ⟨w0, hw0, _, hi⟩ := hspec j w hw
            rw [hi]
            exact hidx j w0 hw0
          have hup' : ∀ j w, nth pl j = some w → w.active_ = true →
              j ≠ index ∧ j ≤ p.highest_active_index_ := by
            intro j w hw hwa
            obtain ⟨w0, hw0, ha, _⟩ := hspec j w hw
            by_cases hji : j = index
            · rw [if_pos hji] at ha
              rw [ha] at hwa
              exact absurd hwa (by simp)
            · rw [if_neg hji] at ha
              exact ⟨hji, hup j w0 hw0 (ha ▸ hwa)⟩
          have hlen' : pl.length = p.capacity_ := by rw [hplen, hlen]
          rw [updateHighI] at hstep
          by_cases hhi : p.highest_active_index_ = index
          · rw [if_pos hhi] at hstep
            by_cases hi0 : index = 0
            · rw [if_pos hi0, Option.some_inj] at hstep
              subst hstep
              refine ⟨hlen', hpos, hidx', fun j w hw hwa => ?_,
                Or.inl (by rw [hhi, hi0])⟩
              have := hup' j w hw hwa
              omega
            · rw [if_neg hi0] at hstep
              cases hsc : scanDown pl (index - 1) with
              | none => simp only [hsc] at hstep; exact Option.noConfusion hstep
              | some r =>
                simp only [hsc] at hstep
                cases r with
                | some i =>
                  rw [Option.some_inj] at hstep
                  subst hstep
                  obtain ⟨hik, ⟨w, hwn, hwa⟩, hbetween⟩ := scanDown_found hsc
                  refine ⟨hlen', hpos, hidx', fun j w' hw' hwa' => ?_,
                    Or.inr ⟨w, hwn, hwa⟩⟩
                  obtain ⟨hji, hjh⟩ := hup' j w' hw' hwa'
                  show j ≤ i
                  by_cases hjgt : i < j
                  · have hjle : j ≤ index - 1 := by omega
                    have := hbetween j hjgt hjle w' hw'
                    rw [this] at hwa'
                    exact absurd hwa' (by simp)
                  · omega
                | none =>
                  rw [Option.some_inj] at hstep
                  subst hstep
                  refine ⟨hlen', hpos, hidx', fun j w' hw' hwa' => ?_, Or.inl rfl⟩
                  obtain ⟨hji, hjh⟩ := hup' j w' hw' hwa'
                  have hjle : j ≤ index - 1 := by omega
                  have := scanDown_not_found hsc j hjle w' hw'
                  rw [this] at hwa'
                  exact absurd hwa' (by simp)
          · rw [if_neg hhi, Option.some_inj] at hstep
            subst hstep
            refine ⟨hlen', hpos, hidx', fun j w hw hwa => (hup' j w hw hwa).2, ?_⟩
            rcases hright with h0 | ⟨w0, hw0, hw0a⟩
            · exact Or.inl h0
            · have hlt : p.highest_active_index_ < pl.length := by
                rw [hplen]
                exact nth_lt_length hw0
              obtain ⟨w, hw⟩ := nth_some_of_lt hlt
              obtain ⟨w0', hw0', ha, _⟩ := hspec _ w hw
              rw [hw0] at hw0'
              cases hw0'
              rw [if_neg hhi] at ha
              exact Or.inr ⟨w, hw, by rw [ha, hw0a]⟩
    · rw [if_neg hic, Option.some_inj] at hstep
      subst hstep
      exact ⟨hlen, hpos, hidx, hup, hright⟩

theorem InvI_runI {p q : IndexedObjectPool} {ops : List Op} (hI : InvI p)
    (hrun : runI p ops = some q) : InvI q := by
  induction ops generalizing p with
  | nil =>
    rw [runI, Option.some_inj] at hrun
    subst hrun
    exact hI
  | cons op rest ih =>
    rw [runI] at hrun
    cases hs : stepI p op with
    | none => simp only [hs] at hrun; exact Option.noConfusion hrun
    | some p' =>
      simp only [hs] at hrun
      exact ih (InvI_stepI hI hs) hrun

/-- C5 counterexample.  The claimed invariant is quantified over every
sequence of operations that only deactivates active slots; but the
disciplined sequence `construct(3); activate; activate; activate;
deactivate(1)` crashes (dereference of the null free-list head inside
`deactivate`'s relinking, undefined behaviour, modelled by `none`), so no
final state satisfying the invariant exists for it. -/
theorem c5_invariant_crash_counterexample :
    disciplinedFromConstructI 3
      [Op.activate, Op.activate, Op.activate, Op.deactivate 1] = true ∧
    runFromConstructI 3
      [Op.activate, Op.activate, Op.activate, Op.deactivate 1] = none :=
  ⟨rfl, rfl⟩

/-- C5 amended: for every disciplined operation sequence whose execution is
defined (the run does not hit the undefined null-head dereference in the
indexed `deactivate`), `highest_active_index_` bounds the index of every
active slot and is itself 0 or the index of an active slot — hence it is
either 0 or exactly the maximum index among currently active slots; in
particular the downward rescan on deactivating the current highest lands on
the largest remaining active index, or 0 if none remains. -/
theorem c5_highest_active_invariant (n : Nat) (ops : List Op)
    (q : IndexedObjectPool) (h0 : 0 < n)
    (hd : disciplinedFromConstructI n ops = true)
    (hrun : runFromConstructI n ops = some q) :
    (∀ i u, nth q.pool_ i = some u → u.active_ = true →
      i ≤ IndexedObjectPool.highestActiveIndex q) ∧
    (IndexedObjectPool.highestActiveIndex q = 0 ∨
      ∃ u, nth q.pool_ (IndexedObjectPool.highestActiveIndex q) = some u ∧
        u.active_ = true) := by
  simp only [runFromConstructI, constructI_eq n h0] at hrun
  have hI0 := InvI_cleared
    { first_available_ := none
      pool_ := List.replicate n defIUnit
      active_count_ := 0
      capacity_ := n
      highest_active_index_ := 0 } h0 (by simp)
  obtain ⟨_, _, _, hup, hright⟩ := InvI_runI hI0 hrun
  exact ⟨hup, hright⟩

/-- The state reached by `IndexedObjectPool(2)`, two `activate()` calls and
`deactivate(1)`: slot 1 held the highest index, so the rescan sets
`highest_active_index_` to 0 (slot 0 is still active). -/
def poolC5 : IndexedObjectPool :=
  { first_available_ := some 1
    pool_ := [{ active_ := true, index_ := 0, next_ := some 1, object_ := 0 },
              { active_ := false, index_ := 1, next_ := none, object_ := 0 }]
    active_count_ := 1, capacity_ := 2, highest_active_index_ := 0 }

/-- C5 witness: the amended theorem applied to a concrete disciplined,
defined run. -/
theorem c5_highest_active_invariant_witness :
    (∀ i u, nth poolC5.pool_ i = some u → u.active_ = true →
      i ≤ IndexedObjectPool.highestActiveIndex poolC5) ∧
    (IndexedObjectPool.highestActiveIndex poolC5 = 0 ∨
      ∃ u, nth poolC5.pool_ (IndexedObjectPool.highestActiveIndex poolC5) = some u ∧
        u.active_ = true) :=
  c5_highest_active_invariant 2 [Op.activate, Op.activate, Op.deactivate 1]
    poolC5 (by decide) (by decide) (by decide)

/-- C6 witness: the exhaustion clause and the fresh-pool clause at capacity 2. -/
theorem c6_basic_activate_witness :
    ObjectPool.construct 2 = some (stateKB 2 0) ∧
    ObjectPool.activeCount (stateKB 2 0) = 0 ∧
    ObjectPool.capacity (stateKB 2 0) = 2 ∧
    activatesB (stateKB 2 0) 2 = some (tabN 0 2, stateKB 2 2) ∧
    (tabN 0 2).Nodup ∧ (tabN 0 2).length = 2 ∧
    ObjectPool.activate (stateKB 2 2) = some (none, stateKB 2 2) :=
  c6_basic_activate.2.2 2 (by decide) (by decide)

end ktp
